import Mathlib

/-!
Shallow embedding of the `html-cache` repository: the ordered byte store
(`byte_cache` in `src/Code/byte_cache.py`, a near-duplicate `html_cache` in
`src/html_cache.py`) and the sharding tree (`cache_tree_node` / `cache_tree`
in `src/Code/cache_tree.py`).

Modelling choices:
* A byte string (`bytes` in the source) is a `List ℕ`; Python's unsigned
  lexicographic comparison on `bytes` is the lexicographic order on lists,
  which is exactly Mathlib's `<` on `List ℕ`.
* Hashing (`_hash_url`) and compression (`_compress`/`_decompress`) are
  external collaborators (KeyDeriver / ValueCodec); the store operations are
  embedded on the already-hashed key and already-encoded value, matching the
  code after its first two lines.
* `int.to_bytes` raises `OverflowError` when the integer does not fit, so the
  serializer returns `Option`: `none` models the raised error.
* File I/O: `save` produces the byte stream written to the file; `load`
  consumes a byte stream (`f.read(n)` takes `min n remaining` bytes).
-/

namespace HtmlCache

/-- A byte string: Python `bytes` as a list of byte values. -/
abbrev ByteStr := List ℕ

/-- The store of `byte_cache.__init__`: two parallel sequences, `index`
(hashed keys) and `content` (compressed values).  The path and width/order
constants are fixed (`_int_width = 5`, `_hash_width = 32`). -/
structure byte_cache where
  index : List ByteStr
  content : List ByteStr
deriving Repr, DecidableEq

/-- A freshly constructed cache: both sequences empty. -/
def byte_cache.empty : byte_cache := ⟨[], []⟩

/-- The binary-search loop of `byte_cache._find_index`: `while L <= R`,
`m = (R - L) // 2 + L`; move `L` up past a smaller element, `R` down past a
larger one, return `(m, True)` on an exact hit, `(L, False)` on fall-through.
`L`, `R` are integers as in the source (`R` reaches `-1`). -/
def findLoop (idx : List ByteStr) (hashed : ByteStr) (L R : Int) : ℕ × Bool :=
  if hLR : L ≤ R then
    if idx.getD ((R - L) / 2 + L).toNat [] < hashed then
      findLoop idx hashed ((R - L) / 2 + L + 1) R
    else if hashed < idx.getD ((R - L) / 2 + L).toNat [] then
      findLoop idx hashed L ((R - L) / 2 + L - 1)
    else (((R - L) / 2 + L).toNat, true)
  else (L.toNat, false)
termination_by (R + 1 - L).toNat
decreasing_by
  all_goals
    have h1 : 0 ≤ (R - L) / 2 := Int.ediv_nonneg (by omega) (by omega)
    have h2 : (R - L) / 2 ≤ R - L := Int.ediv_le_self _ (by omega)
    omega

/-- `byte_cache._find_index`: position of `hashed` in the index, or its
insertion point, together with a membership flag. -/
def byte_cache.find_index (s : byte_cache) (hashed : ByteStr) : ℕ × Bool :=
  if s.index = [] then (0, false)
  else findLoop s.index hashed 0 ((s.index.length : Int) - 1)

/-- `byte_cache.is_cached`, after `_hash_url`. -/
def byte_cache.is_cached (s : byte_cache) (hashed : ByteStr) : Bool :=
  (s.find_index hashed).2

/-- `byte_cache.cache` (upsert), after `_hash_url` and `_compress`: overwrite
the content at a hit, otherwise insert key and value at the insertion point in
both sequences. -/
def byte_cache.cache (s : byte_cache) (hashed compressed : ByteStr) : byte_cache :=
  let r := s.find_index hashed
  if r.2 then { s with content := s.content.set r.1 compressed }
  else { index := s.index.insertIdx r.1 hashed,
         content := s.content.insertIdx r.1 compressed }

/-- `byte_cache.retrieve`, up to the external `_decompress`: `None` on a miss,
otherwise the stored (encoded) value at the matching position. -/
def byte_cache.retrieve (s : byte_cache) (hashed : ByteStr) : Option ByteStr :=
  let r := s.find_index hashed
  if r.2 then some (s.content.getD r.1 []) else none

/-- `byte_cache.split`, verbatim from the source including its parallel-array
slip: `midpoint = len(index) // 2`; `lesser` takes `index[:m]`/`content[:m]`,
but `greater.content` is assigned `self.index[midpoint:]` — the KEY slice —
instead of `self.content[midpoint:]`. -/
def byte_cache.split (s : byte_cache) : byte_cache × byte_cache :=
  let midpoint := s.index.length / 2
  (⟨s.index.take midpoint, s.content.take midpoint⟩,
   ⟨s.index.drop midpoint, s.index.drop midpoint⟩)

/-- Modelled from the spec: `ContentStore.split` as §4.1 requires it (the
"corrected contract"): both halves sliced from their own sequence at the one
midpoint `m = floor(n/2)`.  The source's `byte_cache.split` deviates from
this (see `byte_cache.split` above); the tree-level claims are settled
against this corrected split. -/
def spec_split (s : byte_cache) : byte_cache × byte_cache :=
  let midpoint := s.index.length / 2
  (⟨s.index.take midpoint, s.content.take midpoint⟩,
   ⟨s.index.drop midpoint, s.content.drop midpoint⟩)

/-- Store well-formedness: the documented `ContentStore` invariant — keys
strictly ascending (hence duplicate-free) and the two sequences of equal
length. -/
def store_wf (s : byte_cache) : Prop :=
  List.Sorted (· < ·) s.index ∧ s.index.length = s.content.length

instance (s : byte_cache) : Decidable (store_wf s) := by
  unfold store_wf; infer_instance

/-! ### Serialization (`save` / `load` / `load_index`)

`int.to_bytes(width, byteorder)` / `int.from_bytes`.  The source uses
`sys.byteorder` (host order) on both sides; the embedding fixes little-endian
digits — the order cancels in any save/load round trip on one host. -/

/-- The digits of `value` in base 256, little-endian, exactly `width` bytes
(the value is taken mod `256 ^ width`; the overflow check lives in
`to_bytes`). -/
def toBytesLE : ℕ → ℕ → List ℕ
  | 0, _ => []
  | width + 1, value => value % 256 :: toBytesLE width (value / 256)

/-- `int.to_bytes(width, byteorder)`: `none` models the `OverflowError`
raised when the integer needs more than `width` bytes. -/
def to_bytes (width value : ℕ) : Option (List ℕ) :=
  if value < 256 ^ width then some (toBytesLE width value) else none

/-- `int.from_bytes(bs, byteorder)`. -/
def from_bytes (bs : List ℕ) : ℕ :=
  bs.foldr (fun b acc => acc * 256 + b) 0

/-- The per-entry tail of `byte_cache.save`: for each content, its length as
a 5-byte integer followed by its bytes.  `none` when some value's length
overflows the 5-byte field. -/
def saveContents : List ByteStr → Option (List ℕ)
  | [] => some []
  | c :: rest => do
      let sz ← to_bytes 5 c.length
      let r ← saveContents rest
      pure (sz ++ c ++ r)

/-- `byte_cache.save`: the byte stream written to the cache file — a 5-byte
entry count, the keys in index order, then each value framed by its 5-byte
length.  `none` models the `OverflowError` raised mid-write when a length
does not fit. -/
def byte_cache.save (s : byte_cache) : Option (List ℕ) := do
  let sizeBytes ← to_bytes 5 s.index.length
  let contentBytes ← saveContents s.content
  pure (sizeBytes ++ s.index.flatten ++ contentBytes)

/-- The key-reading loop of `byte_cache.load`: `index_size` reads of 32 bytes
each (`f.read` takes at most what remains), returning the keys and the
remaining stream. -/
def loadKeys : ℕ → List ℕ → List ByteStr × List ℕ
  | 0, bs => ([], bs)
  | n + 1, bs =>
      let k := bs.take 32
      let r := loadKeys n (bs.drop 32)
      (k :: r.1, r.2)

/-- The content-reading loop of `byte_cache.load`: `index_size` iterations of
a 5-byte length read followed by a read of that many bytes. -/
def loadContents : ℕ → List ℕ → List ByteStr × List ℕ
  | 0, bs => ([], bs)
  | n + 1, bs =>
      let size := from_bytes (bs.take 5)
      let c := (bs.drop 5).take size
      let r := loadContents n ((bs.drop 5).drop size)
      (c :: r.1, r.2)

/-- `byte_cache.load`: read the entry count, then `append` that many keys and
that many framed values to the sequences already in memory. -/
def byte_cache.load (s : byte_cache) (bs : List ℕ) : byte_cache :=
  let size := from_bytes (bs.take 5)
  let keys := loadKeys size (bs.drop 5)
  let contents := loadContents size keys.2
  { index := s.index ++ keys.1, content := s.content ++ contents.1 }

/-- `byte_cache.load_index`: read the entry count and `append` that many keys
to the in-memory index; the content sequence is untouched. -/
def byte_cache.load_index (s : byte_cache) (bs : List ℕ) : byte_cache :=
  let size := from_bytes (bs.take 5)
  let keys := loadKeys size (bs.drop 5)
  { s with index := s.index ++ keys.1 }

/-! ### The sharding tree (`cache_tree.py`)

A `cache_tree_node` object is a leaf (only `cache` set) or internal (only
`search_key` and the two children set); the embedding represents the two
shapes as constructors.  Routing keys are 32-byte hashes, so the source's
truthiness test `if self.search_key:` coincides with the None test. -/

inductive cache_tree_node where
  | leaf (cache : byte_cache)
  | internal (search_key : ByteStr) (left_child right_child : cache_tree_node)
deriving Repr, DecidableEq

/-- `cache_tree_node.insert`: descend left when `key < search_key`, else
right; at a leaf call the store's `cache` (upsert). -/
def cache_tree_node.insert : cache_tree_node → ByteStr → ByteStr → cache_tree_node
  | .leaf c, key, value => .leaf (c.cache key value)
  | .internal sk l r, key, value =>
      if key < sk then .internal sk (l.insert key value) r
      else .internal sk l (r.insert key value)

/-- `cache_tree_node.find`: the same descent, ending in the store's
`retrieve`. -/
def cache_tree_node.find : cache_tree_node → ByteStr → Option ByteStr
  | .leaf c, key => c.retrieve key
  | .internal sk l r, key =>
      if key < sk then l.find key else r.find key

/-- The object state produced by `cache_tree_node.split`: the node's
`search_key` is set to `greater.index[0]`, and `left_child` / `right_child`
are assigned the two STORES returned by `byte_cache.split` — raw
`byte_cache` values, not leaf `cache_tree_node`s wrapping them. -/
structure post_split_node where
  search_key : ByteStr
  left_child : byte_cache
  right_child : byte_cache
deriving Repr, DecidableEq

/-- `cache_tree_node.split`, verbatim: splits the leaf's store with the
source's `byte_cache.split`, takes `greater.index[0]` as routing key, and
stores the two halves directly in the child slots. -/
def cache_tree_node.split (cache : byte_cache) : post_split_node :=
  let p := cache.split
  { search_key := p.2.index.getD 0 [],
    left_child := p.1,
    right_child := p.2 }

/-- Modelled from the spec: `splitLeaf` (§4.2).  The `cache_tree` class in
the source declares a `split_threshold` but contains no insert or
split-trigger method, and its node-level `split` both inherits the
`byte_cache.split` slip and stores raw caches in the child slots; this
definition follows the spec's words — split the store with the corrected
partition, route by the minimum key of the greater store, and wrap each half
in a new leaf node. -/
def splitLeaf (cache : byte_cache) : cache_tree_node :=
  let p := spec_split cache
  .internal (p.2.index.getD 0 []) (.leaf p.1) (.leaf p.2)

/-- Modelled from the spec: tree-level `insert` (§4.2), the method missing
from the `cache_tree` class.  Descend as `cache_tree_node.insert` does; after
writing the leaf, if its entry count now exceeds `split_threshold`, perform
`splitLeaf` on that leaf and only that leaf. -/
def tree_insert (split_threshold : ℕ) :
    cache_tree_node → ByteStr → ByteStr → cache_tree_node
  | .leaf c, key, value =>
      let c2 := c.cache key value
      if split_threshold < c2.index.length then splitLeaf c2 else .leaf c2
  | .internal sk l r, key, value =>
      if key < sk then .internal sk (tree_insert split_threshold l key value) r
      else .internal sk l (tree_insert split_threshold r key value)

/-- All keys held in the leaf stores of a subtree. -/
def tree_keys : cache_tree_node → List ByteStr
  | .leaf c => c.index
  | .internal _ l r => tree_keys l ++ tree_keys r

/-- The store of the leaf reached by descending with the routing comparisons
of `insert`/`find`. -/
def descend : cache_tree_node → ByteStr → byte_cache
  | .leaf c, _ => c
  | .internal sk l r, key => if key < sk then descend l key else descend r key

/-- Every leaf store in the subtree holds at most `t` entries. -/
def leaves_bounded (t : ℕ) : cache_tree_node → Prop
  | .leaf c => c.index.length ≤ t
  | .internal _ l r => leaves_bounded t l ∧ leaves_bounded t r

def leaves_bounded_dec (t : ℕ) : (n : cache_tree_node) → Decidable (leaves_bounded t n)
  | .leaf _ => inferInstanceAs (Decidable (_ ≤ _))
  | .internal _ l r =>
      have := leaves_bounded_dec t l
      have := leaves_bounded_dec t r
      inferInstanceAs (Decidable (_ ∧ _))

instance (t : ℕ) (n : cache_tree_node) : Decidable (leaves_bounded t n) :=
  leaves_bounded_dec t n

/-- Tree well-formedness: every leaf store satisfies the store invariant, and
at every internal node all keys on the left are below the routing key while
all keys on the right are at or above it. -/
def tree_wf : cache_tree_node → Prop
  | .leaf c => store_wf c
  | .internal sk l r =>
      tree_wf l ∧ tree_wf r ∧
      (∀ k ∈ tree_keys l, k < sk) ∧ (∀ k ∈ tree_keys r, sk ≤ k)

end HtmlCache

/-! ## Correctness of the binary search (`_find_index`) -/

namespace HtmlCache

lemma sorted_getD_lt {idx : List ByteStr} (hs : List.Sorted (· < ·) idx)
    {i j : ℕ} (hij : i < j) (hj : j < idx.length) :
    idx.getD i [] < idx.getD j [] := by
  have hi : i < idx.length := lt_trans hij hj
  rw [List.getD_eq_getElem idx [] hi, List.getD_eq_getElem idx [] hj]
  have := hs.get_strictMono (show (⟨i, hi⟩ : Fin idx.length) < ⟨j, hj⟩ from hij)
  simpa [List.get_eq_getElem] using this

lemma findLoop_spec (idx : List ByteStr) (hashed : ByteStr)
    (hs : List.Sorted (· < ·) idx) :
    ∀ L R : Int, 0 ≤ L → L ≤ R + 1 → R < (idx.length : Int) →
      (∀ j : ℕ, (j : Int) < L → j < idx.length → idx.getD j [] < hashed) →
      (∀ j : ℕ, R < (j : Int) → j < idx.length → hashed < idx.getD j []) →
      ((findLoop idx hashed L R).2 = true →
          (findLoop idx hashed L R).1 < idx.length ∧
            idx.getD (findLoop idx hashed L R).1 [] = hashed) ∧
      ((findLoop idx hashed L R).2 = false →
          (findLoop idx hashed L R).1 ≤ idx.length ∧
          (∀ j : ℕ, j < (findLoop idx hashed L R).1 → idx.getD j [] < hashed) ∧
          (∀ j : ℕ, (findLoop idx hashed L R).1 ≤ j → j < idx.length →
            hashed < idx.getD j [])) := by
  intro L R
  induction L, R using findLoop.induct idx hashed with
  | case1 L R hLR hlt ih =>
    intro h0L hLR1 hRlen inv1 inv2
    have hm1 : 0 ≤ (R - L) / 2 := Int.ediv_nonneg (by omega) (by omega)
    have hm2 : (R - L) / 2 ≤ R - L := Int.ediv_le_self _ (by omega)
    have hmN : (((R - L) / 2 + L).toNat : Int) = (R - L) / 2 + L := Int.toNat_of_nonneg (by omega)
    have hmlen : ((R - L) / 2 + L).toNat < idx.length := by omega
    rw [findLoop, dif_pos hLR, if_pos hlt]
    refine ih (by omega) (by omega) hRlen ?_ inv2
    intro j hj hjlen
    rcases lt_or_eq_of_le (show j ≤ ((R - L) / 2 + L).toNat by omega) with hcase | hcase
    · exact lt_trans (sorted_getD_lt hs hcase hmlen) hlt
    · rw [hcase]; exact hlt
  | case2 L R hLR hnlt hgt ih =>
    intro h0L hLR1 hRlen inv1 inv2
    have hm1 : 0 ≤ (R - L) / 2 := Int.ediv_nonneg (by omega) (by omega)
    have hm2 : (R - L) / 2 ≤ R - L := Int.ediv_le_self _ (by omega)
    have hmN : (((R - L) / 2 + L).toNat : Int) = (R - L) / 2 + L := Int.toNat_of_nonneg (by omega)
    have hmlen : ((R - L) / 2 + L).toNat < idx.length := by omega
    rw [findLoop, dif_pos hLR, if_neg hnlt, if_pos hgt]
    refine ih h0L (by omega) (by omega) inv1 ?_
    intro j hj hjlen
    rcases lt_or_eq_of_le (show ((R - L) / 2 + L).toNat ≤ j by omega) with hcase | hcase
    · exact lt_trans hgt (sorted_getD_lt hs hcase hjlen)
    · rw [← hcase]; exact hgt
  | case3 L R hLR hnlt hngt =>
    intro h0L hLR1 hRlen inv1 inv2
    have hm1 : 0 ≤ (R - L) / 2 := Int.ediv_nonneg (by omega) (by omega)
    have hm2 : (R - L) / 2 ≤ R - L := Int.ediv_le_self _ (by omega)
    have hmN : (((R - L) / 2 + L).toNat : Int) = (R - L) / 2 + L := Int.toNat_of_nonneg (by omega)
    have hmlen : ((R - L) / 2 + L).toNat < idx.length := by omega
    rw [findLoop, dif_pos hLR, if_neg hnlt, if_neg hngt]
    constructor
    · intro _
      exact ⟨hmlen, le_antisymm (not_lt.mp hngt) (not_lt.mp hnlt)⟩
    · intro hfalse
      simp at hfalse
  | case4 L R hLR =>
    intro h0L hLR1 hRlen inv1 inv2
    rw [findLoop, dif_neg hLR]
    constructor
    · intro htrue
      simp at htrue
    · intro _
      refine ⟨by simp; omega, ?_, ?_⟩
      · intro j hj
        simp at hj
        exact inv1 j (by omega) (by omega)
      · intro j hj hjlen
        simp at hj
        exact inv2 j (by omega) hjlen

end HtmlCache

namespace HtmlCache

section FindIndex

lemma find_index_found {s : byte_cache} (hs : List.Sorted (· < ·) s.index)
    {k : ByteStr} (h : (s.find_index k).2 = true) :
    (s.find_index k).1 < s.index.length ∧
      s.index.getD (s.find_index k).1 [] = k := by
  unfold byte_cache.find_index at *
  by_cases hnil : s.index = []
  · simp [hnil] at h
  · simp only [if_neg hnil] at h ⊢
    exact (findLoop_spec s.index k hs 0 ((s.index.length : Int) - 1)
      (by omega)
      (by omega)
      (by omega)
      (fun j hj _ => absurd hj (by omega))
      (fun j hj hjlen => absurd hj (by omega))).1 h

lemma find_index_not_found {s : byte_cache} (hs : List.Sorted (· < ·) s.index)
    {k : ByteStr} (h : (s.find_index k).2 = false) :
    (s.find_index k).1 ≤ s.index.length ∧
    (∀ j : ℕ, j < (s.find_index k).1 → s.index.getD j [] < k) ∧
    (∀ j : ℕ, (s.find_index k).1 ≤ j → j < s.index.length →
      k < s.index.getD j []) := by
  unfold byte_cache.find_index at *
  by_cases hnil : s.index = []
  · simp [hnil]
  · simp only [if_neg hnil] at h ⊢
    have hlen : s.index.length ≠ 0 := fun hc => hnil (List.length_eq_zero.mp hc)
    exact (findLoop_spec s.index k hs 0 ((s.index.length : Int) - 1)
      (by omega)
      (by omega)
      (by omega)
      (fun j hj _ => absurd hj (by omega))
      (fun j hj hjlen => absurd hj (by omega))).2 h

lemma find_index_mem {s : byte_cache} (hs : List.Sorted (· < ·) s.index)
    {k : ByteStr} (hk : k ∈ s.index) : (s.find_index k).2 = true := by
  by_contra hne
  have hf : (s.find_index k).2 = false := by
    cases hfi : (s.find_index k).2 <;> simp_all
  obtain ⟨-, hlo, hhi⟩ := find_index_not_found hs hf
  obtain ⟨j, hj, hget⟩ := List.mem_iff_getElem.mp hk
  have hgd : s.index.getD j [] = k := by
    rw [List.getD_eq_getElem s.index [] hj]; exact hget
  rcases lt_or_ge j (s.find_index k).1 with hcase | hcase
  · exact absurd hgd (ne_of_lt (hlo j hcase))
  · exact absurd hgd (ne_of_gt (hhi j hcase hj))

end FindIndex

end HtmlCache

/-! ## Upsert preserves the store invariant -/

namespace HtmlCache

lemma insertIdx_eq_take_cons_drop {α : Type} (l : List α) (n : ℕ) (a : α)
    (h : n ≤ l.length) :
    l.insertIdx n a = l.take n ++ a :: l.drop n := by
  induction l generalizing n with
  | nil =>
    cases n with
    | zero => simp
    | succ m => simp at h
  | cons b t ih =>
    cases n with
    | zero => simp
    | succ m =>
      simp only [List.insertIdx_succ_cons, List.take_succ_cons, List.drop_succ_cons,
        List.cons_append, List.cons.injEq, true_and]
      exact ih m (by simpa using h)

lemma sorted_insertIdx {l : List ByteStr} {k : ByteStr} {i : ℕ}
    (hs : List.Sorted (· < ·) l) (hi : i ≤ l.length)
    (hlo : ∀ j, j < i → l.getD j [] < k)
    (hhi : ∀ j, i ≤ j → j < l.length → k < l.getD j []) :
    List.Sorted (· < ·) (l.insertIdx i k) := by
  rw [insertIdx_eq_take_cons_drop l i k hi]
  have hmem_take : ∀ a ∈ l.take i, a < k := by
    intro a ha
    obtain ⟨j, hj, hget⟩ := List.mem_iff_getElem.mp ha
    have hjlen : j < l.length := by simp at hj; omega
    have hji : j < i := by simp at hj; omega
    have : l.take i = l.take i := rfl
    rw [List.getElem_take] at hget
    rw [← hget, ← List.getD_eq_getElem l [] hjlen]
    exact hlo j hji
  have hmem_drop : ∀ a ∈ l.drop i, k < a := by
    intro a ha
    obtain ⟨j, hj, hget⟩ := List.mem_iff_getElem.mp ha
    have hjlen : i + j < l.length := by simp at hj; omega
    rw [List.getElem_drop] at hget
    rw [← hget, ← List.getD_eq_getElem l [] hjlen]
    exact hhi (i + j) (by omega) hjlen
  refine List.pairwise_append.mpr ⟨hs.sublist (List.take_sublist i l), ?_, ?_⟩
  · refine List.pairwise_cons.mpr ⟨fun b hb => hmem_drop b hb, hs.sublist (List.drop_sublist i l)⟩
  · intro a ha b hb
    rcases List.mem_cons.mp hb with rfl | hb'
    · exact hmem_take a ha
    · exact lt_trans (hmem_take a ha) (hmem_drop b hb')

/-- `cache` preserves the store invariant (sortedness + parallel lengths). -/
lemma cache_wf {s : byte_cache} (hw : store_wf s) (k v : ByteStr) :
    store_wf (s.cache k v) := by
  obtain ⟨hs, hlen⟩ := hw
  unfold byte_cache.cache
  cases hfi : (s.find_index k).2 with
  | true =>
    simp only [hfi, if_true]
    exact ⟨hs, by simpa using hlen⟩
  | false =>
    simp only [hfi, Bool.false_eq_true, if_false]
    obtain ⟨hle, hlo, hhi⟩ := find_index_not_found hs hfi
    refine ⟨sorted_insertIdx hs hle hlo hhi, ?_⟩
    show (s.index.insertIdx _ k).length = (s.content.insertIdx _ v).length
    rw [List.length_insertIdx _ _ hle, List.length_insertIdx _ _ (hlen ▸ hle), hlen]

end HtmlCache

/-! ## Value-level behaviour of `cache` and `retrieve` -/

namespace HtmlCache

/-- A hit leaves the index unchanged. -/
lemma cache_index_of_mem {s : byte_cache} (hs : List.Sorted (· < ·) s.index)
    {k : ByteStr} (hk : k ∈ s.index) (v : ByteStr) :
    (s.cache k v).index = s.index := by
  unfold byte_cache.cache
  simp only [find_index_mem hs hk, if_true]

/-- `cache` grows the index by at most one entry. -/
lemma cache_index_length_le (s : byte_cache) (k v : ByteStr) :
    (s.cache k v).index.length ≤ s.index.length + 1 := by
  unfold byte_cache.cache
  cases hfi : (s.find_index k).2 with
  | true => simp [hfi]
  | false =>
    simp only [hfi, Bool.false_eq_true, if_false]
    exact List.length_insertIdx_le_succ s.index k (s.find_index k).1

/-- The keys after an upsert are the old keys plus (at most) the new one. -/
lemma mem_cache_index {s : byte_cache} (hs : List.Sorted (· < ·) s.index)
    (k v a : ByteStr) :
    a ∈ (s.cache k v).index ↔ a = k ∨ a ∈ s.index := by
  unfold byte_cache.cache
  cases hfi : (s.find_index k).2 with
  | true =>
    obtain ⟨hlt, hget⟩ := find_index_found hs hfi
    have hk : k ∈ s.index := by
      rw [List.getD_eq_getElem s.index [] hlt] at hget
      exact hget ▸ List.getElem_mem hlt
    simp only [hfi, if_true]
    constructor
    · exact fun h => Or.inr h
    · rintro (rfl | h)
      · exact hk
      · exact h
  | false =>
    obtain ⟨hle, -, -⟩ := find_index_not_found hs hfi
    simp only [hfi, Bool.false_eq_true, if_false]
    exact List.mem_insertIdx hle

/-- A key absent from the index is a `retrieve` miss. -/
lemma retrieve_of_not_mem {s : byte_cache} (hs : List.Sorted (· < ·) s.index)
    {k : ByteStr} (hk : k ∉ s.index) : s.retrieve k = none := by
  unfold byte_cache.retrieve
  cases hfi : (s.find_index k).2 with
  | true =>
    obtain ⟨hlt, hget⟩ := find_index_found hs hfi
    rw [List.getD_eq_getElem s.index [] hlt] at hget
    exact absurd (hget ▸ List.getElem_mem hlt) hk
  | false => simp [hfi]

/-- A present key is retrieved from its (unique) position in the index:
`retrieve` returns the parallel entry of the content sequence. -/
lemma retrieve_of_mem {s : byte_cache} (hs : List.Sorted (· < ·) s.index)
    {k : ByteStr} {i : ℕ} (hi : i < s.index.length)
    (hget : s.index[i] = k) :
    s.retrieve k = some (s.content.getD i []) := by
  unfold byte_cache.retrieve
  have hmem : k ∈ s.index := hget ▸ List.getElem_mem hi
  have hfi : (s.find_index k).2 = true := find_index_mem hs hmem
  obtain ⟨hlt, hgd⟩ := find_index_found hs hfi
  rw [List.getD_eq_getElem s.index [] hlt] at hgd
  have : (s.find_index k).1 = i :=
    (List.Nodup.getElem_inj_iff hs.nodup).mp (hgd.trans hget.symm)
  simp only [hfi, if_true, this]

/-- Upserting `(k, v)` makes `k` retrieve `v`. -/
lemma retrieve_cache_self {s : byte_cache} (hw : store_wf s) (k v : ByteStr) :
    (s.cache k v).retrieve k = some v := by
  obtain ⟨hs, hlen⟩ := hw
  have hw2 := cache_wf ⟨hs, hlen⟩ k v
  unfold byte_cache.cache at *
  cases hfi : (s.find_index k).2 with
  | true =>
    obtain ⟨hlt, hget⟩ := find_index_found hs hfi
    rw [List.getD_eq_getElem s.index [] hlt] at hget
    simp only [hfi, if_true] at hw2 ⊢
    have hret := retrieve_of_mem hw2.1 (show (s.find_index k).1 < s.index.length from hlt) hget
    rw [hret]
    congr 1
    have hcl : (s.find_index k).1 < s.content.length := hlen ▸ hlt
    rw [List.getD_eq_getElem _ [] (by simpa using hcl)]
    simp [List.getElem_set_self]
  | false =>
    obtain ⟨hle, -, -⟩ := find_index_not_found hs hfi
    simp only [hfi, Bool.false_eq_true, if_false] at hw2 ⊢
    have hlen2 : (s.index.insertIdx (s.find_index k).1 k).length = s.index.length + 1 :=
      List.length_insertIdx _ _ hle
    have hlt2 : (s.find_index k).1 < (s.index.insertIdx (s.find_index k).1 k).length := by
      omega
    have hget2 : (s.index.insertIdx (s.find_index k).1 k)[(s.find_index k).1] = k :=
      List.getElem_insertIdx_self s.index k _ hle
    have hret := retrieve_of_mem hw2.1 hlt2 hget2
    rw [hret]
    congr 1
    show (s.content.insertIdx (s.find_index k).1 v).getD (s.find_index k).1 [] = v
    have hle' : (s.find_index k).1 ≤ s.content.length := hlen ▸ hle
    have hlenc : (s.content.insertIdx (s.find_index k).1 v).length = s.content.length + 1 :=
      List.length_insertIdx _ _ hle'
    rw [List.getD_eq_getElem _ [] (by omega)]
    exact List.getElem_insertIdx_self s.content v _ hle'

end HtmlCache

/-! ## Serialization round trip -/

namespace HtmlCache

lemma toBytesLE_length : ∀ w v : ℕ, (toBytesLE w v).length = w
  | 0, _ => rfl
  | w + 1, v => by simp [toBytesLE, toBytesLE_length w]

lemma from_bytes_cons (b : ℕ) (bs : List ℕ) :
    from_bytes (b :: bs) = from_bytes bs * 256 + b := rfl

lemma from_bytes_toBytesLE : ∀ w v : ℕ, v < 256 ^ w →
    from_bytes (toBytesLE w v) = v
  | 0, v, h => by
    simp [pow_zero] at h
    simp [h, toBytesLE, from_bytes]
  | w + 1, v, h => by
    have hdiv : v / 256 < 256 ^ w := by
      rw [Nat.div_lt_iff_lt_mul (by norm_num)]
      calc v < 256 ^ (w + 1) := h
        _ = 256 ^ w * 256 := by ring
    rw [toBytesLE, from_bytes_cons, from_bytes_toBytesLE w _ hdiv]
    omega

lemma to_bytes_eq_some {w v : ℕ} {bs : List ℕ} (h : to_bytes w v = some bs) :
    v < 256 ^ w ∧ bs = toBytesLE w v := by
  unfold to_bytes at h
  split at h
  · exact ⟨by assumption, (Option.some.inj h).symm⟩
  · simp at h

lemma to_bytes_isSome {w v : ℕ} : (to_bytes w v).isSome = true ↔ v < 256 ^ w := by
  unfold to_bytes
  split <;> simp_all

lemma loadKeys_spec : ∀ (ks : List ByteStr) (rest : List ℕ),
    (∀ k ∈ ks, k.length = 32) →
    loadKeys ks.length (ks.flatten ++ rest) = (ks, rest)
  | [], rest, _ => rfl
  | k :: ks, rest, hw => by
    have hk : k.length = 32 := hw k (List.mem_cons_self k ks)
    have hih := loadKeys_spec ks rest (fun a ha => hw a (List.mem_cons_of_mem k ha))
    simp only [List.length_cons, loadKeys, List.flatten_cons, List.append_assoc]
    rw [List.take_left' hk, List.drop_left' hk, hih]

lemma loadContents_spec : ∀ (cs : List ByteStr) (bs rest : List ℕ),
    saveContents cs = some bs →
    loadContents cs.length (bs ++ rest) = (cs, rest)
  | [], bs, rest, h => by
    simp [saveContents] at h
    simp [← h, loadContents]
  | c :: cs, bs, rest, h => by
    unfold saveContents at h
    cases hsz : to_bytes 5 c.length with
    | none => rw [hsz] at h; simp at h
    | some sz =>
      rw [hsz] at h
      cases hr : saveContents cs with
      | none => rw [hr] at h; simp at h
      | some r =>
        rw [hr] at h
        simp only [Option.bind_eq_bind, Option.some_bind] at h
        have hbs : bs = sz ++ c ++ r := (Option.some.inj h).symm
        subst hbs
        obtain ⟨hlt, hszval⟩ := to_bytes_eq_some hsz
        have hszlen : sz.length = 5 := by rw [hszval]; exact toBytesLE_length 5 c.length
        have hfb : from_bytes sz = c.length := by
          rw [hszval]; exact from_bytes_toBytesLE 5 c.length hlt
        have hih := loadContents_spec cs r rest hr
        simp only [List.length_cons, loadContents, List.append_assoc]
        rw [List.take_left' hszlen, List.drop_left' hszlen, hfb,
          List.take_left' rfl, List.drop_left' rfl, hih]

/-- `saveContents` succeeds exactly when every value length fits the 5-byte
field. -/
lemma saveContents_isSome : ∀ cs : List ByteStr,
    (saveContents cs).isSome = true ↔ ∀ c ∈ cs, c.length < 256 ^ 5
  | [] => by simp [saveContents]
  | c :: cs => by
    have ih := saveContents_isSome cs
    unfold saveContents
    cases hsz : to_bytes 5 c.length with
    | none =>
      have hnc : ¬ c.length < 256 ^ 5 := by
        intro hlt
        have h2 := to_bytes_isSome.mpr (show c.length < 256 ^ 5 from hlt)
        rw [hsz] at h2
        simp at h2
      simp only [Option.bind_eq_bind, Option.none_bind, Option.isSome_none,
        Bool.false_eq_true, false_iff]
      intro hall
      exact hnc (hall c (List.mem_cons_self c cs))
    | some sz =>
      have hc : c.length < 256 ^ 5 := (to_bytes_eq_some hsz).1
      cases hr : saveContents cs with
      | none =>
        rw [hr] at ih
        simp only [Option.isSome_none, Bool.false_eq_true, false_iff] at ih
        simp only [Option.bind_eq_bind, Option.some_bind, hr, Option.none_bind,
          Option.isSome_none, Bool.false_eq_true, false_iff]
        intro hall
        exact ih (fun a ha => hall a (List.mem_cons_of_mem c ha))
      | some r =>
        rw [hr] at ih
        simp only [Option.isSome_some, true_iff] at ih
        simp only [Option.bind_eq_bind, Option.some_bind, hr, Option.pure_def,
          Option.isSome_some, true_iff]
        intro a ha
        rcases List.mem_cons.mp ha with rfl | ha'
        · exact hc
        · exact ih a ha'

/-- `save` succeeds exactly when the entry count and every value length fit
the 5-byte integer field. -/
lemma save_isSome (s : byte_cache) :
    (s.save).isSome = true ↔
      s.index.length < 256 ^ 5 ∧ ∀ c ∈ s.content, c.length < 256 ^ 5 := by
  unfold byte_cache.save
  cases hsz : to_bytes 5 s.index.length with
  | none =>
    have hnc : ¬ s.index.length < 256 ^ 5 := by
      intro hlt
      have h2 := to_bytes_isSome.mpr (show s.index.length < 256 ^ 5 from hlt)
      rw [hsz] at h2
      simp at h2
    simp only [Option.bind_eq_bind, Option.none_bind, Option.isSome_none,
      Bool.false_eq_true, false_iff, not_and]
    intro hlt
    exact absurd hlt hnc
  | some sz =>
    have hc : s.index.length < 256 ^ 5 := (to_bytes_eq_some hsz).1
    cases hr : saveContents s.content with
    | none =>
      have h2 := saveContents_isSome s.content
      rw [hr] at h2
      simp only [Option.isSome_none, Bool.false_eq_true, false_iff] at h2
      simp only [Option.bind_eq_bind, Option.some_bind, hr, Option.none_bind,
        Option.isSome_none, Bool.false_eq_true, false_iff, not_and]
      intro _
      exact h2
    | some r =>
      have h2 := saveContents_isSome s.content
      rw [hr] at h2
      simp only [Option.isSome_some, true_iff] at h2
      simp only [Option.bind_eq_bind, Option.some_bind, hr, Option.pure_def,
        Option.isSome_some, true_iff]
      exact ⟨hc, h2⟩

/-- `load` with the `let`s of the source inlined. -/
lemma load_eq (s : byte_cache) (bs : List ℕ) :
    s.load bs =
      { index := s.index ++ (loadKeys (from_bytes (bs.take 5)) (bs.drop 5)).1,
        content := s.content ++
          (loadContents (from_bytes (bs.take 5))
            (loadKeys (from_bytes (bs.take 5)) (bs.drop 5)).2).1 } := rfl

/-- `load_index` with the `let`s of the source inlined. -/
lemma load_index_eq (s : byte_cache) (bs : List ℕ) :
    s.load_index bs =
      { index := s.index ++ (loadKeys (from_bytes (bs.take 5)) (bs.drop 5)).1,
        content := s.content } := rfl

/-- What `load` appends: parsing the byte stream written by `save t` yields
exactly `t`'s keys and values, appended after whatever the loading store
already holds. -/
lemma load_save {t : byte_cache} {bs : List ℕ}
    (hkw : ∀ k ∈ t.index, k.length = 32)
    (hlen : t.index.length = t.content.length)
    (hsave : t.save = some bs) (s : byte_cache) :
    s.load bs = ⟨s.index ++ t.index, s.content ++ t.content⟩ := by
  unfold byte_cache.save at hsave
  cases hsz : to_bytes 5 t.index.length with
  | none => rw [hsz] at hsave; simp at hsave
  | some sz =>
    rw [hsz] at hsave
    cases hr : saveContents t.content with
    | none => rw [hr] at hsave; simp at hsave
    | some r =>
      rw [hr] at hsave
      simp only [Option.bind_eq_bind, Option.some_bind] at hsave
      have hbs : bs = sz ++ t.index.flatten ++ r := (Option.some.inj hsave).symm
      subst hbs
      obtain ⟨hlt, hszval⟩ := to_bytes_eq_some hsz
      have hszlen : sz.length = 5 := by rw [hszval]; exact toBytesLE_length 5 _
      have hfb : from_bytes sz = t.index.length := by
        rw [hszval]; exact from_bytes_toBytesLE 5 _ hlt
      have hkeys := loadKeys_spec t.index r hkw
      have hconts := loadContents_spec t.content r [] hr
      rw [List.append_nil] at hconts
      have hk1 : (loadKeys t.index.length (t.index.flatten ++ r)).1 = t.index := by
        rw [hkeys]
      have hk2 : (loadKeys t.index.length (t.index.flatten ++ r)).2 = r := by
        rw [hkeys]
      have hc1 : (loadContents t.content.length r).1 = t.content := by
        rw [hconts]
      rw [load_eq]
      simp only [List.append_assoc]
      rw [List.take_left' hszlen, List.drop_left' hszlen, hfb, hk1, hk2, hlen, hc1]

/-- Same computation for `load_index`: only the key sequence grows. -/
lemma load_index_save {t : byte_cache} {bs : List ℕ}
    (hkw : ∀ k ∈ t.index, k.length = 32)
    (hsave : t.save = some bs) (s : byte_cache) :
    s.load_index bs = ⟨s.index ++ t.index, s.content⟩ := by
  unfold byte_cache.save at hsave
  cases hsz : to_bytes 5 t.index.length with
  | none => rw [hsz] at hsave; simp at hsave
  | some sz =>
    rw [hsz] at hsave
    cases hr : saveContents t.content with
    | none => rw [hr] at hsave; simp at hsave
    | some r =>
      rw [hr] at hsave
      simp only [Option.bind_eq_bind, Option.some_bind] at hsave
      have hbs : bs = sz ++ t.index.flatten ++ r := (Option.some.inj hsave).symm
      subst hbs
      obtain ⟨hlt, hszval⟩ := to_bytes_eq_some hsz
      have hszlen : sz.length = 5 := by rw [hszval]; exact toBytesLE_length 5 _
      have hfb : from_bytes sz = t.index.length := by
        rw [hszval]; exact from_bytes_toBytesLE 5 _ hlt
      have hk1 : (loadKeys t.index.length (t.index.flatten ++ r)).1 = t.index := by
        rw [loadKeys_spec t.index r hkw]
      rw [load_index_eq]
      simp only [List.append_assoc]
      rw [List.take_left' hszlen, List.drop_left' hszlen, hfb, hk1]

end HtmlCache

/-! ## Tree invariants and routing -/

namespace HtmlCache

lemma getD_drop_zero {l : List ByteStr} {m : ℕ} (h : m < l.length) :
    (l.drop m).getD 0 [] = l.getD m [] := by
  have hlen : 0 < (l.drop m).length := by simp; omega
  rw [List.getD_eq_getElem _ [] hlen, List.getD_eq_getElem l [] h]
  simp [List.getElem_drop]

lemma mem_take_lt {l : List ByteStr} (hs : List.Sorted (· < ·) l) {m : ℕ}
    (hm : m < l.length) {a : ByteStr} (ha : a ∈ l.take m) : a < l.getD m [] := by
  obtain ⟨j, hj, hget⟩ := List.mem_iff_getElem.mp ha
  have hjm : j < m := by simp at hj; omega
  rw [List.getElem_take] at hget
  have hjl : j < l.length := lt_trans hjm hm
  have hlt := sorted_getD_lt hs hjm hm
  rw [List.getD_eq_getElem l [] hjl] at hlt
  rw [← hget]
  exact hlt

lemma mem_drop_ge {l : List ByteStr} (hs : List.Sorted (· < ·) l) {m : ℕ}
    {a : ByteStr} (ha : a ∈ l.drop m) : l.getD m [] ≤ a := by
  obtain ⟨j, hj, hget⟩ := List.mem_iff_getElem.mp ha
  have hmj : m + j < l.length := by simp at hj; omega
  rw [List.getElem_drop] at hget
  rcases Nat.eq_zero_or_pos j with rfl | hjpos
  · rw [← hget, List.getD_eq_getElem l [] (by omega)]
    simp
  · have hlt : l.getD m [] < l.getD (m + j) [] := sorted_getD_lt hs (by omega) hmj
    rw [List.getD_eq_getElem l [] hmj] at hlt
    rw [← hget]
    exact le_of_lt hlt

lemma store_wf_spec_split {s : byte_cache} (hw : store_wf s) :
    store_wf (spec_split s).1 ∧ store_wf (spec_split s).2 := by
  obtain ⟨hs, hlen⟩ := hw
  unfold spec_split store_wf
  refine ⟨⟨hs.sublist (List.take_sublist _ _), ?_⟩,
          ⟨hs.sublist (List.drop_sublist _ _), ?_⟩⟩ <;> simp [hlen]

lemma splitLeaf_wf {c : byte_cache} (hw : store_wf c) (hpos : 0 < c.index.length) :
    tree_wf (splitLeaf c) := by
  obtain ⟨hwl, hwg⟩ := store_wf_spec_split hw
  have hm : c.index.length / 2 < c.index.length := by omega
  refine ⟨hwl, hwg, ?_, ?_⟩
  · intro k hk
    show k < (spec_split c).2.index.getD 0 []
    have : (spec_split c).2.index.getD 0 [] = c.index.getD (c.index.length / 2) [] :=
      getD_drop_zero hm
    rw [this]
    exact mem_take_lt hw.1 hm hk
  · intro k hk
    show (spec_split c).2.index.getD 0 [] ≤ k
    have : (spec_split c).2.index.getD 0 [] = c.index.getD (c.index.length / 2) [] :=
      getD_drop_zero hm
    rw [this]
    exact mem_drop_ge hw.1 hk

lemma tree_keys_splitLeaf (c : byte_cache) :
    tree_keys (splitLeaf c) = c.index := by
  show c.index.take _ ++ c.index.drop _ = c.index
  exact List.take_append_drop _ _

/-- The keys in the tree after a (spec-modelled) insert are the old keys plus
(at most) the inserted one. -/
lemma tree_insert_keys {t : ℕ} {n : cache_tree_node} (hw : tree_wf n)
    (k v a : ByteStr) :
    a ∈ tree_keys (tree_insert t n k v) ↔ a = k ∨ a ∈ tree_keys n := by
  induction n with
  | leaf c =>
    show a ∈ tree_keys (if t < (c.cache k v).index.length then _ else _) ↔ _
    by_cases hsp : t < (c.cache k v).index.length
    · rw [if_pos hsp, tree_keys_splitLeaf]
      exact mem_cache_index hw.1 k v a
    · rw [if_neg hsp]
      exact mem_cache_index hw.1 k v a
  | internal sk l r ihl ihr =>
    obtain ⟨hwl, hwr, -, -⟩ := hw
    show a ∈ tree_keys (if k < sk then _ else _) ↔ _
    by_cases hdir : k < sk
    · rw [if_pos hdir]
      show a ∈ tree_keys (tree_insert t l k v) ++ tree_keys r ↔ _
      simp only [List.mem_append, ihl hwl, tree_keys, or_assoc]
    · rw [if_neg hdir]
      show a ∈ tree_keys l ++ tree_keys (tree_insert t r k v) ↔ _
      simp only [List.mem_append, ihr hwr, tree_keys]
      tauto

/-- A (spec-modelled) insert preserves tree well-formedness. -/
lemma tree_insert_wf {t : ℕ} {n : cache_tree_node} (hw : tree_wf n)
    (k v : ByteStr) : tree_wf (tree_insert t n k v) := by
  induction n with
  | leaf c =>
    have hw2 : store_wf (c.cache k v) := cache_wf hw k v
    show tree_wf (if t < (c.cache k v).index.length then _ else _)
    by_cases hsp : t < (c.cache k v).index.length
    · rw [if_pos hsp]
      exact splitLeaf_wf hw2 (by omega)
    · rw [if_neg hsp]
      exact hw2
  | internal sk l r ihl ihr =>
    obtain ⟨hwl, hwr, hkl, hkr⟩ := hw
    show tree_wf (if k < sk then _ else _)
    by_cases hdir : k < sk
    · rw [if_pos hdir]
      refine ⟨ihl hwl, hwr, ?_, hkr⟩
      intro a ha
      rcases (tree_insert_keys hwl k v a).mp ha with rfl | ha'
      · exact hdir
      · exact hkl a ha'
    · rw [if_neg hdir]
      refine ⟨hwl, ihr hwr, hkl, ?_⟩
      intro a ha
      rcases (tree_insert_keys hwr k v a).mp ha with rfl | ha'
      · exact not_lt.mp hdir
      · exact hkr a ha'

/-- Descending with the routing comparisons finds every present key. -/
lemma descend_mem {n : cache_tree_node} (hw : tree_wf n) {k : ByteStr}
    (hk : k ∈ tree_keys n) : k ∈ (descend n k).index := by
  induction n with
  | leaf c => exact hk
  | internal sk l r ihl ihr =>
    obtain ⟨hwl, hwr, hkl, hkr⟩ := hw
    show k ∈ (if k < sk then descend l k else descend r k).index
    rcases List.mem_append.mp hk with hmem | hmem
    · rw [if_pos (hkl k hmem)]
      exact ihl hwl hmem
    · rw [if_neg (not_lt.mpr (hkr k hmem))]
      exact ihr hwr hmem

/-- `find` is exactly `retrieve` on the descended-to leaf's store. -/
lemma find_eq_descend (n : cache_tree_node) (k : ByteStr) :
    n.find k = (descend n k).retrieve k := by
  induction n with
  | leaf c => rfl
  | internal sk l r ihl ihr =>
    show (if k < sk then l.find k else r.find k) = _
    unfold descend
    by_cases hdir : k < sk
    · rw [if_pos hdir, if_pos hdir, ihl]
    · rw [if_neg hdir, if_neg hdir, ihr]

/-- `insert` is exactly `cache` (upsert) on the descended-to leaf's store:
the shape of the tree and every other leaf are untouched. -/
lemma insert_eq_descend (n : cache_tree_node) (k v : ByteStr) :
    descend (n.insert k v) k = (descend n k).cache k v := by
  induction n with
  | leaf c => rfl
  | internal sk l r ihl ihr =>
    show descend (if k < sk then _ else _) k = _
    unfold descend
    by_cases hdir : k < sk
    · rw [if_pos hdir]
      show (if k < sk then descend (l.insert k v) k else descend r k) = _
      rw [if_pos hdir, if_pos hdir, ihl]
    · rw [if_neg hdir]
      show (if k < sk then descend l k else descend (r.insert k v) k) = _
      rw [if_neg hdir, if_neg hdir, ihr]

/-- A (spec-modelled) insert keeps every leaf at or below the threshold. -/
lemma tree_insert_bounded {t : ℕ} (ht : 1 ≤ t) {n : cache_tree_node}
    (hb : leaves_bounded t n) (k v : ByteStr) :
    leaves_bounded t (tree_insert t n k v) := by
  induction n with
  | leaf c =>
    have hgrow : (c.cache k v).index.length ≤ c.index.length + 1 :=
      cache_index_length_le c k v
    have hc : c.index.length ≤ t := hb
    show leaves_bounded t (if t < (c.cache k v).index.length then _ else _)
    by_cases hsp : t < (c.cache k v).index.length
    · rw [if_pos hsp]
      constructor
      · show ((c.cache k v).index.take _).length ≤ t
        simp
        omega
      · show ((c.cache k v).index.drop _).length ≤ t
        simp
        omega
    · rw [if_neg hsp]
      exact not_lt.mp hsp
  | internal sk l r ihl ihr =>
    obtain ⟨hbl, hbr⟩ := hb
    show leaves_bounded t (if k < sk then _ else _)
    by_cases hdir : k < sk
    · rw [if_pos hdir]
      exact ⟨ihl hbl, hbr⟩
    · rw [if_neg hdir]
      exact ⟨hbl, ihr hbr⟩

end HtmlCache

/-! ## The claims -/

namespace HtmlCache

lemma foldl_cache_wf : ∀ (ops : List (ByteStr × ByteStr)) (s : byte_cache),
    store_wf s → store_wf (ops.foldl (fun a p => a.cache p.1 p.2) s)
  | [], _, hw => hw
  | p :: ops, _, hw => foldl_cache_wf ops _ (cache_wf hw p.1 p.2)

lemma store_wf_empty : store_wf byte_cache.empty := ⟨List.sorted_nil, rfl⟩

/-- C1: `byte_cache.split` does NOT partition the entries: on the concrete
2-entry store `{(0x00 ↦ 0x0a), (0x01 ↦ 0x0b)}` the greater half's value
sequence is the key slice `[0x01]`, not the value slice `[0x0b]`, so the
union of the halves' entries differs from the original store's entries. -/
theorem C1_split_partition_bug :
    (byte_cache.split ⟨[[0], [1]], [[10], [11]]⟩).1.content ++
        (byte_cache.split ⟨[[0], [1]], [[10], [11]]⟩).2.content ≠
      (⟨[[0], [1]], [[10], [11]]⟩ : byte_cache).content ∧
    (byte_cache.split ⟨[[0], [1]], [[10], [11]]⟩).2.content = [[1]] ∧
    spec_split ⟨[[0], [1]], [[10], [11]]⟩ =
      (⟨[[0]], [[10]]⟩, ⟨[[1]], [[11]]⟩) := by decide

/-- The corrected split of §4.1 — both sequences sliced at the one midpoint —
partitions the entries exactly: keys and values concatenate back to the
originals, and every key of the lesser half is below every key of the greater
half. -/
theorem spec_split_partition (s : byte_cache) (hs : List.Sorted (· < ·) s.index) :
    (spec_split s).1.index ++ (spec_split s).2.index = s.index ∧
    (spec_split s).1.content ++ (spec_split s).2.content = s.content ∧
    (spec_split s).1.index.length = s.index.length / 2 ∧
    (∀ a ∈ (spec_split s).1.index, ∀ b ∈ (spec_split s).2.index, a < b) := by
  refine ⟨List.take_append_drop _ _, List.take_append_drop _ _,
    by simp [spec_split]; omega, ?_⟩
  intro a ha b hb
  have hm : s.index.length / 2 < s.index.length := by
    by_contra hcon
    have hnil : s.index = [] := List.length_eq_zero.mp (by omega)
    simp [spec_split, hnil] at hb
  exact lt_of_lt_of_le (mem_take_lt hs hm ha) (mem_drop_ge hs hb)

/-- `spec_split_partition` at a concrete sorted store. -/
theorem spec_split_partition_check :
    List.Sorted (· < ·) ([[0], [1]] : List ByteStr) ∧
      ((spec_split ⟨[[0], [1]], [[10], [11]]⟩).1.index ++
          (spec_split ⟨[[0], [1]], [[10], [11]]⟩).2.index =
        ([[0], [1]] : List ByteStr)) :=
  ⟨by decide, (spec_split_partition ⟨[[0], [1]], [[10], [11]]⟩ (by decide)).1⟩

/-- C6: starting from the empty store, every sequence of upserts leaves the
key sequence strictly ascending under the lexicographic byte order (hence
duplicate-free). -/
theorem C6_sort_invariant (ops : List (ByteStr × ByteStr)) :
    List.Sorted (· < ·)
      ((ops.foldl (fun a p => a.cache p.1 p.2) byte_cache.empty).index) :=
  (foldl_cache_wf ops byte_cache.empty store_wf_empty).1

/-- C7: upserting `k ↦ v1` then `k ↦ v2` leaves exactly one entry for `k`,
holding `v2`, and the entry count is unchanged by the second upsert. -/
theorem C7_idempotent_upsert (s : byte_cache) (hw : store_wf s)
    (k v1 v2 : ByteStr) :
    (∃! i : Fin ((s.cache k v1).cache k v2).index.length,
      ((s.cache k v1).cache k v2).index.get i = k) ∧
    ((s.cache k v1).cache k v2).retrieve k = some v2 ∧
    ((s.cache k v1).cache k v2).index.length = (s.cache k v1).index.length := by
  have hw1 : store_wf (s.cache k v1) := cache_wf hw k v1
  have hw2 : store_wf ((s.cache k v1).cache k v2) := cache_wf hw1 k v2
  have hmem : k ∈ (s.cache k v1).index :=
    (mem_cache_index hw.1 k v1 k).mpr (Or.inl rfl)
  have hmem2 : k ∈ ((s.cache k v1).cache k v2).index :=
    (mem_cache_index hw1.1 k v2 k).mpr (Or.inl rfl)
  have hidx : ((s.cache k v1).cache k v2).index = (s.cache k v1).index :=
    cache_index_of_mem hw1.1 hmem v2
  refine ⟨?_, retrieve_cache_self hw1 k v2, by rw [hidx]⟩
  obtain ⟨i, hget⟩ := List.mem_iff_get.mp hmem2
  refine ⟨i, hget, ?_⟩
  intro j hj
  exact List.nodup_iff_injective_get.mp hw2.1.nodup (hj.trans hget.symm)

/-- C7 witness: concrete double upsert on the empty store. -/
theorem C7_idempotent_upsert_witness :
    store_wf byte_cache.empty ∧
      ((∃! i : Fin ((byte_cache.empty.cache [1] [2]).cache [1] [3]).index.length,
         ((byte_cache.empty.cache [1] [2]).cache [1] [3]).index.get i = [1]) ∧
       ((byte_cache.empty.cache [1] [2]).cache [1] [3]).retrieve [1] = some [3] ∧
       ((byte_cache.empty.cache [1] [2]).cache [1] [3]).index.length =
         (byte_cache.empty.cache [1] [2]).index.length) :=
  ⟨by decide, C7_idempotent_upsert byte_cache.empty (by decide) [1] [2] [3]⟩

/-- C8: `retrieve` returns `none` (a value, not an exception) for an absent
key and the content entry at the key's index for a present key; the embedded
`retrieve` is a pure function of the store, mirroring that the source method
performs no writes. -/
theorem C8_lookup_miss_is_value (s : byte_cache) (k : ByteStr)
    (hs : List.Sorted (· < ·) s.index) :
    (k ∉ s.index → s.retrieve k = none) ∧
    (∀ i : ℕ, ∀ hi : i < s.index.length, s.index[i] = k →
      s.retrieve k = some (s.content.getD i [])) :=
  ⟨fun hk => retrieve_of_not_mem hs hk,
   fun _ hi hget => retrieve_of_mem hs hi hget⟩

/-- C8 witness: concrete hit and miss on a one-entry store. -/
theorem C8_lookup_miss_is_value_witness :
    (byte_cache.retrieve ⟨[[1]], [[9]]⟩ [2] = none) ∧
      (byte_cache.retrieve ⟨[[1]], [[9]]⟩ [1] = some [9]) :=
  ⟨(C8_lookup_miss_is_value ⟨[[1]], [[9]]⟩ [2] (by decide)).1 (by decide),
   (C8_lookup_miss_is_value ⟨[[1]], [[9]]⟩ [1] (by decide)).2 0 (by decide) (by decide)⟩

/-- C9: `save` raises `OverflowError` (modelled as `none`) exactly when the
entry count or some value length does not fit the 5-byte field; under the
precondition that all are below `2 ^ 40` it always succeeds. -/
theorem C9_save_overflow (s : byte_cache) :
    s.save = none ↔
      ¬(s.index.length < 2 ^ 40 ∧ ∀ c ∈ s.content, c.length < 2 ^ 40) := by
  have h := save_isSome s
  have h405 : (256 : ℕ) ^ 5 = 2 ^ 40 := by norm_num
  rw [h405] at h
  rw [← h]
  cases s.save <;> simp

end HtmlCache

namespace HtmlCache

/-- C3: saving a well-formed store (32-byte keys, parallel sequences, entry
count and value lengths below `2 ^ 40`) and loading the produced bytes into a
freshly created store reproduces the key and value sequences exactly, in
order. -/
theorem C3_store_round_trip (s : byte_cache)
    (hkw : ∀ k ∈ s.index, k.length = 32)
    (hlen : s.index.length = s.content.length)
    (hcount : s.index.length < 2 ^ 40)
    (hvals : ∀ c ∈ s.content, c.length < 2 ^ 40) :
    ∃ bs : List ℕ, s.save = some bs ∧ byte_cache.empty.load bs = s := by
  have hsome : (s.save).isSome = true := by
    rw [save_isSome]
    have h405 : (256 : ℕ) ^ 5 = 2 ^ 40 := by norm_num
    rw [h405]
    exact ⟨hcount, hvals⟩
  obtain ⟨bs, hbs⟩ := Option.isSome_iff_exists.mp hsome
  refine ⟨bs, hbs, ?_⟩
  rw [load_save hkw hlen hbs byte_cache.empty]
  show ({ index := [] ++ s.index, content := [] ++ s.content } : byte_cache) = s
  simp

/-- C3 witness: a concrete one-entry store with a 32-byte key. -/
theorem C3_store_round_trip_witness :
    (∀ k ∈ ([List.replicate 32 0] : List ByteStr), k.length = 32) ∧
      ∃ bs : List ℕ,
        byte_cache.save ⟨[List.replicate 32 0], [[7, 8]]⟩ = some bs ∧
          byte_cache.empty.load bs = ⟨[List.replicate 32 0], [[7, 8]]⟩ :=
  ⟨by decide,
   C3_store_round_trip ⟨[List.replicate 32 0], [[7, 8]]⟩ (by decide) (by decide)
     (by decide) (by decide)⟩

/-- C10: `load` and `load_index` append the file's keys and values after any
entries already in memory; loading reproduces the saved store exactly when —
and only when — the loading store is empty. -/
theorem C10_load_appends (s t : byte_cache) (bs : List ℕ)
    (hkw : ∀ k ∈ t.index, k.length = 32)
    (hlen : t.index.length = t.content.length)
    (hsave : t.save = some bs) :
    s.load bs = ⟨s.index ++ t.index, s.content ++ t.content⟩ ∧
    s.load_index bs = ⟨s.index ++ t.index, s.content⟩ ∧
    (s.index = [] ∧ s.content = [] → s.load bs = t) ∧
    (s.index ≠ [] → s.load bs ≠ t) := by
  refine ⟨load_save hkw hlen hsave s, load_index_save hkw hsave s, ?_, ?_⟩
  · rintro ⟨h1, h2⟩
    rw [load_save hkw hlen hsave s, h1, h2]
    simp
  · intro hne heq
    rw [load_save hkw hlen hsave s] at heq
    have hlens : (s.index ++ t.index).length = t.index.length :=
      congrArg (List.length ∘ byte_cache.index) heq
    simp at hlens
    exact hne hlens

/-- C10 witness: loading a saved one-entry store on top of a nonempty store
appends and therefore differs from the saved store. -/
theorem C10_load_appends_witness :
    ∃ bs : List ℕ, byte_cache.save ⟨[List.replicate 32 1], [[9]]⟩ = some bs ∧
      (byte_cache.load ⟨[[5]], [[6]]⟩ bs =
        ⟨[[5]] ++ [List.replicate 32 1], [[6]] ++ [[9]]⟩ ∧
       byte_cache.load ⟨[[5]], [[6]]⟩ bs ≠ ⟨[List.replicate 32 1], [[9]]⟩) := by
  have hsv : (byte_cache.save ⟨[List.replicate 32 1], [[9]]⟩).isSome = true := by
    rw [save_isSome]
    constructor
    · decide
    · decide
  obtain ⟨bs, hbs⟩ := Option.isSome_iff_exists.mp hsv
  have h := C10_load_appends ⟨[[5]], [[6]]⟩ ⟨[List.replicate 32 1], [[9]]⟩ bs
    (by decide) (by decide) hbs
  exact ⟨bs, hbs, h.1, h.2.2.2 (by decide)⟩

end HtmlCache

namespace HtmlCache

lemma tree_insert_foldl_bounded {t : ℕ} (ht : 1 ≤ t) :
    ∀ (ops : List (ByteStr × ByteStr)) (n : cache_tree_node),
      leaves_bounded t n →
      leaves_bounded t (ops.foldl (fun a p => tree_insert t a p.1 p.2) n)
  | [], _, hb => hb
  | p :: ops, _, hb =>
      tree_insert_foldl_bounded ht ops _ (tree_insert_bounded ht hb p.1 p.2)

lemma tree_insert_foldl_wf (t : ℕ) :
    ∀ (ops : List (ByteStr × ByteStr)) (n : cache_tree_node), tree_wf n →
      tree_wf (ops.foldl (fun a p => tree_insert t a p.1 p.2) n)
  | [], _, hw => hw
  | p :: ops, _, hw =>
      tree_insert_foldl_wf t ops _ (tree_insert_wf hw p.1 p.2)

/-- C2: with a positive split threshold `t`, an insert that leaves the
written leaf with more than `t` entries replaces it — and only it — by
`splitLeaf` of its store (an internal node with two leaf children, by the
definition of `splitLeaf`); consequently, over any sequence of inserts
starting from a single empty leaf, no leaf holds more than `t` entries after
an insert returns. -/
theorem C2_split_threshold_invariant (t : ℕ) (ht : 1 ≤ t)
    (ops : List (ByteStr × ByteStr)) :
    (∀ (c : byte_cache) (k v : ByteStr), t < (c.cache k v).index.length →
        tree_insert t (.leaf c) k v = splitLeaf (c.cache k v)) ∧
    (∀ (c : byte_cache) (k v : ByteStr), ¬t < (c.cache k v).index.length →
        tree_insert t (.leaf c) k v = .leaf (c.cache k v)) ∧
    leaves_bounded t
      (ops.foldl (fun a p => tree_insert t a p.1 p.2) (.leaf byte_cache.empty)) := by
  refine ⟨?_, ?_, ?_⟩
  · intro c k v hover
    show (if t < (c.cache k v).index.length then _ else _) = _
    rw [if_pos hover]
  · intro c k v hunder
    show (if t < (c.cache k v).index.length then _ else _) = _
    rw [if_neg hunder]
  · exact tree_insert_foldl_bounded ht ops _ (show leaves_bounded t (.leaf byte_cache.empty) from Nat.zero_le t)

/-- C2 witness: threshold 1, three concrete inserts. -/
theorem C2_split_threshold_invariant_witness :
    1 ≤ 1 ∧ leaves_bounded 1
      (([([1], [10]), ([3], [30]), ([2], [20])] :
          List (ByteStr × ByteStr)).foldl
        (fun a p => tree_insert 1 a p.1 p.2) (.leaf byte_cache.empty)) :=
  ⟨le_refl 1,
   (C2_split_threshold_invariant 1 (le_refl 1) [([1], [10]), ([3], [30]), ([2], [20])]).2.2⟩

/-- C4: at the concrete 2-entry leaf store `{(0x00 ↦ 0x0a), (0x01 ↦ 0x0b)}`,
the source's `cache_tree_node.split` picks the claimed routing key
(`greater.index[0] = 0x01`) but assigns the raw stores to the child slots
(mirrored by `post_split_node`) and its right store carries the KEY slice
`[0x01]` as its value sequence — it is not the greater half `([0x01], [0x0b])`
that a leaf node should wrap. -/
theorem C4_node_split_bug :
    (cache_tree_node.split ⟨[[0], [1]], [[10], [11]]⟩).search_key = [1] ∧
    (cache_tree_node.split ⟨[[0], [1]], [[10], [11]]⟩).right_child.content = [[1]] ∧
    (cache_tree_node.split ⟨[[0], [1]], [[10], [11]]⟩).right_child ≠
      (spec_split ⟨[[0], [1]], [[10], [11]]⟩).2 := by decide

/-- C5: `find` descends by routing-key comparisons and ends in `retrieve` at
the reached leaf; `insert` performs its upsert on exactly the store of that
same descent; and in any tree built by (spec-modelled, threshold-checked)
inserts from a single empty leaf, the descent for any present key `k`
reaches the leaf whose store contains `k`. -/
theorem C5_routing_correctness (t : ℕ) (ops : List (ByteStr × ByteStr))
    (k v : ByteStr) (n : cache_tree_node) :
    (n.find k = (descend n k).retrieve k) ∧
    (descend (n.insert k v) k = (descend n k).cache k v) ∧
    (k ∈ tree_keys
        (ops.foldl (fun a p => tree_insert t a p.1 p.2) (.leaf byte_cache.empty)) →
      k ∈ (descend
        (ops.foldl (fun a p => tree_insert t a p.1 p.2) (.leaf byte_cache.empty))
        k).index) :=
  ⟨find_eq_descend n k, insert_eq_descend n k v,
   fun hk => descend_mem
     (tree_insert_foldl_wf t ops _
       (show tree_wf (.leaf byte_cache.empty) from store_wf_empty)) hk⟩

end HtmlCache

namespace HtmlCache

/-- C5 witness: threshold 1, two inserts force a split; the present key
`0x03` is reached by the descent. -/
theorem C5_routing_correctness_witness :
    [3] ∈ tree_keys
      (([([1], [10]), ([3], [30])] : List (ByteStr × ByteStr)).foldl
        (fun a p => tree_insert 1 a p.1 p.2) (.leaf byte_cache.empty)) ∧
    [3] ∈ (descend
      (([([1], [10]), ([3], [30])] : List (ByteStr × ByteStr)).foldl
        (fun a p => tree_insert 1 a p.1 p.2) (.leaf byte_cache.empty)) [3]).index :=
  ⟨by simp [tree_insert, byte_cache.cache, byte_cache.find_index, findLoop,
      splitLeaf, spec_split, tree_keys, byte_cache.empty] <;> decide,
   (C5_routing_correctness 1 [([1], [10]), ([3], [30])] [3] [0]
      (.leaf byte_cache.empty)).2.2
     (by simp [tree_insert, byte_cache.cache, byte_cache.find_index, findLoop,
        splitLeaf, spec_split, tree_keys, byte_cache.empty] <;> decide)⟩

end HtmlCache
